import Mathlib

/-!
Verification development for the vitamin object-relational mapping layer.

The development shallowly embeds the Query builder (src/src/query.js), the
Model surface that the claims touch (src/unnamed/part_000, a model module),
the BelongsToMany relation (src/src/relations/belongs-to-many.js) and the
many-to-many mixin (src/src/relations/mixins/many-to-many.js).

JavaScript values are modelled by the inductive JVal below.  Underscore
library predicates (isObject, isArray, isEmpty, uniq, extend, clone) are
modelled by the js* definitions, each following the underscore 1.x source
that the repository depends on.  Plain JavaScript objects are association
lists that keep insertion order, as JavaScript property order does for
string keys.

Query builder state is modelled twice:
- a value-semantics model (structure Query) used for claims about the
  accumulated condition tree and the assembled descriptor, where the
  defensive copies made by assemble are identities; and
- a heap model (structure Heap / HQuery further below) used for the
  snapshot claim, where objects and arrays live at addresses and mutation
  and aliasing are explicit, mirroring the JavaScript object graph.
-/

/-- A JavaScript value: primitives, arrays and plain objects.  Object
fields are kept in insertion order, as JavaScript enumeration does for
string keys.  NaN is a separate constructor so that numeric coercion of
non-numeric input stays representable. -/
inductive JVal where
  | vStr (s : String)
  | vNum (n : Int)
  | vNaN
  | vBool (b : Bool)
  | vUndefined
  | vNull
  | vArr (xs : List JVal)
  | vObj (fs : List (String × JVal))

/-- underscore isObject: functions and non-null objects; arrays count as
objects, primitives (strings included) do not. -/
def isObjectJ : JVal → Bool
  | .vArr _ => true
  | .vObj _ => true
  | _ => false

/-- underscore isArray. -/
def isArrayJ : JVal → Bool
  | .vArr _ => true
  | _ => false

/-- underscore isEmpty: null and undefined are empty; arrays and strings
are empty when their length is zero; for everything else the check is
whether the value has own enumerable keys, so every number and every
boolean is empty (underscore keys returns the empty list for
non-objects). -/
def isEmptyJ : JVal → Bool
  | .vUndefined => true
  | .vNull => true
  | .vStr s => s.isEmpty
  | .vNum _ => true
  | .vNaN => true
  | .vBool _ => true
  | .vArr xs => xs.isEmpty
  | .vObj fs => fs.isEmpty

/-- The JavaScript Number coercion used by take and skip.  Numbers stay
themselves, booleans and null coerce to 0 or 1, integer-literal strings
parse, everything else is modelled as NaN (objects and arrays coerce
through valueOf and toString, which no claim exercises). -/
def jsNumber : JVal → JVal
  | .vNum n => .vNum n
  | .vNaN => .vNaN
  | .vBool b => .vNum (if b then 1 else 0)
  | .vNull => .vNum 0
  | .vStr s => if s.isEmpty then .vNum 0 else
      match s.toInt? with
      | some n => .vNum n
      | none => .vNaN
  | _ => .vNaN

/-- Coercion of a value used as a property name, as in o[key] = val. -/
def propKeyJ : JVal → String
  | .vStr s => s
  | .vNum n => toString n
  | .vNaN => ("NaN")
  | .vBool b => toString b
  | .vUndefined => ("undefined")
  | .vNull => ("null")
  | .vArr _ => ("array")
  | .vObj _ => ("object")

/-- JavaScript strict equality on primitives.  Two structurally equal
array or object LITERALS are distinct references, hence never
strictly equal; a value aliased twice is not expressible in this value
model, so the false answer for objects is the faithful one for the
fresh-literal arguments all claims use.  NaN is not equal to itself. -/
def jsSameVal : JVal → JVal → Bool
  | .vStr a, .vStr b => a == b
  | .vNum a, .vNum b => a == b
  | .vBool a, .vBool b => a == b
  | .vUndefined, .vUndefined => true
  | .vNull, .vNull => true
  | _, _ => false

/-- underscore uniq keeps the first occurrence of each value, walking the
list left to right and testing membership in the already-kept prefix. -/
def uniqAux (eqb : α → α → Bool) (seen : List α) : List α → List α
  | [] => []
  | x :: xs =>
      if seen.any (eqb x) then uniqAux eqb seen xs
      else x :: uniqAux eqb (x :: seen) xs

/-- underscore uniq (no isSorted, no iteratee). -/
def uniqJS (eqb : α → α → Bool) (l : List α) : List α := uniqAux eqb [] l

/-- Set one key of an insertion-ordered object: an existing key keeps its
position and gets the new value, a new key is appended, as JavaScript
property assignment does. -/
def setKey (fs : List (String × α)) (k : String) (v : α) : List (String × α) :=
  match fs with
  | [] => [(k, v)]
  | (k0, v0) :: rest =>
      if k0 = k then (k0, v) :: rest else (k0, v0) :: setKey rest k v

/-- underscore extend: copy the own enumerable properties of the source
onto the target, last write wins per key.  An array source contributes
its indices as keys; non-object sources contribute nothing. -/
def extendJ (target : List (String × JVal)) (source : JVal) : List (String × JVal) :=
  match source with
  | .vObj fs => fs.foldl (fun acc kv => setKey acc kv.1 kv.2) target
  | .vArr xs => (xs.enum).foldl (fun acc p => setKey acc (toString p.1) p.2) target
  | _ => target

/-- Model class-level configuration: the primary key option and the
class-level driver (Model.driver), identified by an opaque tag. -/
structure ModelCls where
  pk : String
  clsDriver : Option Nat

/-- A model instance: its class and its attribute data.  The data
container (a separate module, consumed through get and set only) is an
insertion-ordered attribute list. -/
structure ModelInst where
  cls : ModelCls
  data : List (String × JVal)

/-- Model.prototype.getKeyName: the pk option. -/
def ModelInst.getKeyName (m : ModelInst) : String := m.cls.pk

/-- Attribute read through the data container: this.data.get(attr). -/
def ModelInst.get (m : ModelInst) (attr : String) : JVal :=
  match m.data.find? (fun kv => kv.1 = attr) with
  | some kv => kv.2
  | none => .vUndefined

/-- Model.prototype.getId: this.get(this.getKeyName()). -/
def ModelInst.getId (m : ModelInst) : JVal := m.get m.getKeyName

/-- The value held by the read-only driver property of a Query.  The
query constructor stores whatever it was handed: a model instance (what
Model.prototype.newQuery actually passes first), a class-level driver
adapter, or undefined. -/
inductive QueryDriver where
  | inst (m : ModelInst)
  | ext (d : Nat)
  | undefinedDrv

/-- Query builder state (src/src/query.js constructor): the accumulated
condition tree _where, eager-load names _rels (the customization values
attached to each name are irrelevant to every claim and are omitted),
_select, _order, the _distinct flag, _offset, _limit, _from, the
read-only driver property, and the model property, which the constructor
never sets. -/
structure Query where
  _where : List (String × JVal)
  _rels : List String
  _select : List JVal
  _order : List JVal
  _distinct : Bool
  _offset : JVal
  _limit : JVal
  _from : JVal
  driver : QueryDriver
  model : Option ModelInst

/-- function Query(driver): all pieces start empty or undefined; driver
is stored as a read-only property; this.model is left unset. -/
def Query.new (driver : QueryDriver) : Query :=
  { _where := [], _rels := [], _select := [], _order := [],
    _distinct := false, _offset := .vUndefined, _limit := .vUndefined,
    _from := .vUndefined, driver := driver, model := none }

/-- Model.prototype.newQuery: new Query(this, this.constructor.driver).
The Query constructor declares a single parameter, so the first argument
(the model instance itself) becomes the driver and the class-level
driver passed second is dropped; setModel is never called. -/
def ModelInst.newQuery (m : ModelInst) : Query :=
  Query.new (QueryDriver.inst m)

/-- Query.prototype.setModel. -/
def Query.setModel (q : Query) (m : ModelInst) : Query := { q with model := some m }

/-- Query.prototype.with: replaces the eager-load declarations; string
arguments become names mapped to a no-op customization; duplicate names
collapse onto one object key. -/
def Query.withRelated (q : Query) (related : List String) : Query :=
  { q with _rels := uniqJS (fun a b => a == b) related }

/-- Query.prototype.assemble: walk select, distinct, from, where, order,
offset, limit in that order, skip any piece that underscore isEmpty
accepts, copy arrays (slice) and objects (clone) and collect the rest.
In this value-semantics model the defensive slice and clone are
identities; the heap model below keeps them as real copies. -/
def Query.assemble (q : Query) : JVal :=
  let pieces : List (String × JVal) :=
    [(("select"), .vArr q._select),
     (("distinct"), .vBool q._distinct),
     (("from"), q._from),
     (("where"), .vObj q._where),
     (("order"), .vArr q._order),
     (("offset"), q._offset),
     (("limit"), q._limit)]
  .vObj (pieces.filter (fun p => !isEmptyJ p.2))

/-- The helper _object(key, val) at the bottom of src/src/query.js: if
val is an object it is returned unchanged (the key is dropped),
otherwise a one-field object is built. -/
def _object (key : JVal) (val : JVal) : JVal :=
  if isObjectJ val then val else .vObj [(propKeyJ key, val)]

/-- The value argument of where: either a plain value or a sub Query
(the source tests val instanceof Query). -/
inductive WhereVal where
  | val (v : JVal)
  | query (q : Query)

/-- Whether the where value argument is an array (a Query instance is not). -/
def WhereVal.isArr : WhereVal → Bool
  | .val v => isArrayJ v
  | .query _ => false

/-- Case 1 of the switch in Query.prototype.where, entered with one
argument and, because no case of the switch has a break, also reached by
fall-through from the two- and three-argument entries: cond is set to
the key when the key is an object and to a fresh empty object otherwise,
then extended onto this._where. -/
def Query.where1 (q : Query) (key : JVal) : Query :=
  let condv : JVal := if isObjectJ key then key else .vObj []
  { q with _where := extendJ q._where condv }

/-- Case 3 of the switch in Query.prototype.where (three arguments): a
Query value is first assembled, cond is computed as
_object(key, _object(op, val)) - a dead store, because the switch has no
break and execution falls through into case 1, which recomputes cond
from the key alone before the extend. -/
def Query.where3 (q : Query) (key : JVal) (op : JVal) (v : WhereVal) : Query :=
  let val : JVal :=
    match v with
    | .query sub => sub.assemble
    | .val x => x
  let _condDead : JVal := _object key (_object op val)
  q.where1 key

/-- Case 2 of the switch in Query.prototype.where (two arguments): val
takes the second argument, op becomes $in for a sequence and $eq
otherwise, and execution falls through into case 3 and then case 1. -/
def Query.where2 (q : Query) (key : JVal) (v : WhereVal) : Query :=
  let op : JVal := .vStr (if v.isArr then ("$in") else ("$eq"))
  q.where3 key op v

/-- Query.prototype.whereIn: this.where(key, "$in", val). -/
def Query.whereIn (q : Query) (key : JVal) (v : WhereVal) : Query :=
  q.where3 key (.vStr ("$in")) v

/-- Query.prototype.orWhere: this.where with the single object argument
whose $or key holds the clause sequence. -/
def Query.orWhere (q : Query) (clauses : List JVal) : Query :=
  q.where1 (.vObj [(("$or"), .vArr clauses)])

/-- Query.prototype.select: a single array argument is taken as the
field list (further arguments are then ignored), otherwise all arguments
are collected; the accumulated list is the deduplicated concatenation. -/
def Query.select (q : Query) (field : JVal) (rest : List JVal) : Query :=
  let args : List JVal :=
    match field with
    | .vArr xs => xs
    | f => f :: rest
  { q with _select := uniqJS jsSameVal (q._select ++ args) }

/-- Query.prototype.order: same argument handling as select, targeting
the order list. -/
def Query.order (q : Query) (field : JVal) (rest : List JVal) : Query :=
  let args : List JVal :=
    match field with
    | .vArr xs => xs
    | f => f :: rest
  { q with _order := uniqJS jsSameVal (q._order ++ args) }

/-- Query.prototype.distinct. -/
def Query.distinct (q : Query) : Query := { q with _distinct := true }

/-- Query.prototype.take: this._limit = Number(n). -/
def Query.take (q : Query) (n : JVal) : Query := { q with _limit := jsNumber n }

/-- Query.prototype.skip: this._offset = Number(n). -/
def Query.skip (q : Query) (n : JVal) : Query := { q with _offset := jsNumber n }

/-- Query.prototype.from (from is a Lean keyword, hence the name). -/
def Query.fromSrc (q : Query) (f : JVal) : Query := { q with _from := f }

/-- Errors surfaced through the promise pipeline: the ModelNotFound error
from src/src/errors, a JavaScript TypeError (property access on
undefined), and a plain Error (the undefined-relationship throw). -/
inductive JsErr where
  | modelNotFoundError
  | typeError (msg : String)
  | jsError (msg : String)

/-- The settled state of a promise chain: resolved with a value or
rejected with an error. -/
inductive Outcome (α : Type) where
  | resolved (a : α)
  | rejected (e : JsErr)

/-- Modelled from the spec: Model#setData is called by Query.fetch but
is not among the provided sources; per the spec, fetch hydrates the
bound entity with the record, overwriting all prior state. -/
def ModelInst.setData (m : ModelInst) (resp : JVal) : ModelInst :=
  { m with data := match resp with | .vObj fs => fs | _ => [] }

/-- Modelled from the spec: Model#newInstance is called by
Query.fetchAll but is not among the provided sources; per the spec,
fetchAll wraps every returned record into a new entity instance (never
mutating the bound entity). -/
def ModelInst.newInstance (m : ModelInst) (resp : JVal) : ModelInst :=
  { cls := m.cls, data := match resp with | .vObj fs => fs | _ => [] }

/-- Query.prototype.loadRelated.  The body is
Promise.bind(this).map(keys(this._rels), iterateRelations), and the
instance map of the promise library takes the MAPPER as its first
argument and iterates the fulfillment value of the promise it is
called on - undefined here, since Promise.bind(this) carries no value
(contrast the correct Promise.bind(this, ids).map(this.attach) in
attachMany).  Handed the key array where the mapper belongs, the
library rejects with a TypeError before invoking anything, for every
builder, declared relations or not; the iterateRelations callback, and
with it _getRelation, is dead code, so the relation machinery it would
reach is not modelled. -/
def Query.loadRelatedOutcome (q : Query)
    (_entities : List ModelInst) : Outcome Unit :=
  let _keys := q._rels
  .rejected (.typeError ("expecting a function but got [object Array]"))

/-- Query.prototype.fetch, given the value the driver fetch resolves to:
an empty or absent response rejects with ModelNotFound before anything
else runs; otherwise this.model.setData hydrates the bound model (a
TypeError when this.model is undefined) and the tap on loadRelated runs
before the hydrated entity would resolve. -/
def Query.fetchOutcome (q : Query) (driverFetch : JVal → JVal) :
    Outcome ModelInst :=
  let resp := driverFetch q.assemble
  if isEmptyJ resp then .rejected .modelNotFoundError
  else
    match q.model with
    | none => .rejected (.typeError ("cannot read setData of undefined"))
    | some m =>
        let hydrated := m.setData resp
        match q.loadRelatedOutcome [hydrated] with
        | .resolved _ => .resolved hydrated
        | .rejected e => .rejected e

/-- Query.prototype.fetchAll, given the sequence the driver fetchAll
resolves to: every record is wrapped by this.model.newInstance (for a
nonempty response this is a TypeError when this.model is undefined; an
empty response maps to the empty entity sequence without touching the
model), then the tap on loadRelated runs before the entity sequence
would resolve. -/
def Query.fetchAllOutcome (q : Query) (driverFetchAll : JVal → List JVal) :
    Outcome (List ModelInst) :=
  let resp := driverFetchAll q.assemble
  let entities : Outcome (List ModelInst) :=
    match q.model with
    | none =>
        match resp with
        | [] => .resolved []
        | _ => .rejected (.typeError ("cannot read newInstance of undefined"))
    | some m => .resolved (resp.map m.newInstance)
  match entities with
  | .rejected e => .rejected e
  | .resolved ents =>
      match q.loadRelatedOutcome ents with
      | .resolved _ => .resolved ents
      | .rejected e => .rejected e

/-- BelongsToMany relation state: the parent and related model
instances, the pivot model instance built by through, and the two
foreign key names; query is the relation query builder scoped to the
related model by the relation base class. -/
structure BelongsToMany where
  parent : ModelInst
  related : ModelInst
  pivot : ModelInst
  localKey : String
  otherKey : String
  query : Query

/-- BelongsToMany._newPivotQuery: this.pivot.newQuery() pre-filtered
with where(this.localKey, this.parent.getId()), the two-argument where. -/
def BelongsToMany.newPivotQuery (r : BelongsToMany) : Query :=
  (r.pivot.newQuery).where2 (.vStr r.localKey) (.val r.parent.getId)

/-- The ids argument of detach: absent, a callback function in the ids
position, a plain value, or a related model instance. -/
inductive DetachArg where
  | noArg
  | callback
  | value (v : JVal)
  | entity (m : ModelInst)

/-- BelongsToMany.detach: builds the pivot query, normalizes ids (a
callback in the first position resets ids to the empty sequence, a model
instance is replaced by its id, a non-array is wrapped in a singleton -
note that the absent argument is undefined, which wraps to a singleton
holding undefined), applies whereIn on the other key when the normalized
sequence is nonempty, and issues exactly one driver destroy with the
assembled descriptor.  The returned list holds the descriptor of each
destroy issued. -/
def BelongsToMany.detachDestroyDescriptors (r : BelongsToMany)
    (arg : DetachArg) : List JVal :=
  let query := r.newPivotQuery
  let ids : JVal :=
    match arg with
    | .noArg => .vUndefined
    | .callback => .vArr []
    | .value v => v
    | .entity m => m.getId
  let idsList : List JVal :=
    match ids with
    | .vArr xs => xs
    | v => [v]
  let query :=
    if idsList.length > 0 then
      query.whereIn (.vStr r.otherKey) (.val (.vArr idsList))
    else query
  [query.assemble]

/-- Modelled from the spec: Relation#_getKeys lives in the relation base
class, which is not among the provided sources; per the spec it gathers
the set of key values named k of all the given entities. -/
def BelongsToMany._getKeys (models : List ModelInst) (k : String) : List JVal :=
  uniqJS jsSameVal (models.map (fun m => m.get k))

/-- BelongsToMany._applyConstraints: whereIn on the related key name
with the distinct other-key pivot sub-query as value. -/
def BelongsToMany.applyConstraints (r : BelongsToMany) : BelongsToMany :=
  let other := r.related.getKeyName
  let subQuery := r.newPivotQuery
  let constrained :=
    r.query.whereIn (.vStr other)
      (.query ((subQuery.select (.vStr r.otherKey) []).distinct))
  { r with query := constrained }

/-- BelongsToMany._applyEagerConstraints: the pivot sub-query is
additionally filtered with whereIn on the local key over the key values
of all given parents, then the relation query gets whereIn on the
related key name with that sub-query as value. -/
def BelongsToMany.applyEagerConstraints (r : BelongsToMany)
    (models : List ModelInst) : BelongsToMany :=
  let subQuery := r.newPivotQuery
  let localName := r.parent.getKeyName
  let other := r.related.getKeyName
  let subQuery := subQuery.whereIn (.vStr r.localKey)
      (.val (.vArr (BelongsToMany._getKeys models localName)))
  let constrained :=
    r.query.whereIn (.vStr other)
      (.query ((subQuery.select (.vStr r.otherKey) []).distinct))
  { r with query := constrained }

/-- An entity as the many-to-many mixin sees it after a fetch through
the pivot: its own attributes plus the embedded pivot sub-record,
reachable through related("pivot").  The pivot field is an option so
that a removed pivot record is representable. -/
structure PEntity where
  attrs : List (String × JVal)
  pivotAttrs : Option (List (String × JVal))

/-- Modelled from the spec: model.related("pivot").get(key) reads the
named attribute of the embedded pivot sub-record (related lives in the
model module outside the provided sources). -/
def PEntity.pivotGet (e : PEntity) (k : String) : JVal :=
  match e.pivotAttrs with
  | none => .vUndefined
  | some fs =>
      match fs.find? (fun kv => kv.1 = k) with
      | some kv => kv.2
      | none => .vUndefined

/-- cleanPivotAttributes from the many-to-many mixin: the body returns
the models argument unchanged - nothing is removed, although its doc
comment says it cleans the pivot attributes from the models. -/
def cleanPivotAttributes (models : List PEntity) : List PEntity := models

/-- Grouping as the collection groupBy does: object keys are strings, so
the group key is the string coercion of the iteratee value; groups keep
first-appearance order and each group keeps element order. -/
def addGroup (acc : List (String × List α)) (k : String) (e : α) :
    List (String × List α) :=
  match acc with
  | [] => [(k, [e])]
  | (k0, es) :: rest =>
      if k0 = k then (k0, es ++ [e]) :: rest else (k0, es) :: addGroup rest k e

/-- Collection groupBy over a list. -/
def groupByKey (f : α → String) (xs : List α) : List (String × List α) :=
  xs.foldl (fun acc e => addGroup acc (f e) e) []

/-- buildDictionary from the many-to-many mixin: cleanPivotAttributes is
called on the models (for its side effect, of which there is none), and
the models are grouped by the value of the named attribute of their
embedded pivot record. -/
def buildDictionary (models : List PEntity) (key : String) :
    List (String × List PEntity) :=
  groupByKey (fun m => propKeyJ (m.pivotGet key)) (cleanPivotAttributes models)

/-! Concrete fixtures used by the claim theorems. -/

/-- A parent model instance with primary key id equal to 7 and a
class-level driver tag. -/
def exParent : ModelInst := ⟨⟨("id"), some 3⟩, [(("id"), .vNum 7)]⟩

/-- A related model instance with an empty attribute set. -/
def exRelated : ModelInst := ⟨⟨("id"), none⟩, []⟩

/-- A related model instance whose id is 4. -/
def exRelated4 : ModelInst := ⟨⟨("id"), none⟩, [(("id"), .vNum 4)]⟩

/-- A pivot model instance as built by through. -/
def exPivot : ModelInst := ⟨⟨("id"), none⟩, []⟩

/-- A BelongsToMany relation: parent id 7, pivot keyed by user_id and
tag_id, relation query freshly scoped to the related model. -/
def exRel : BelongsToMany :=
  ⟨exParent, exRelated, exPivot, ("user_id"), ("tag_id"),
    ModelInst.newQuery exRelated⟩

/-- A parent entity with id 1. -/
def exParentA : ModelInst := ⟨⟨("id"), some 3⟩, [(("id"), .vNum 1)]⟩

/-- A parent entity with id 2. -/
def exParentB : ModelInst := ⟨⟨("id"), some 3⟩, [(("id"), .vNum 2)]⟩

/-- Pivot-carrying entities for the dictionary claim. -/
def exE1 : PEntity := ⟨[(("n"), .vStr ("a"))], some [(("k"), .vNum 1)]⟩

/-- Second entity sharing pivot key value 1. -/
def exE2 : PEntity := ⟨[(("n"), .vStr ("b"))], some [(("k"), .vNum 1)]⟩

/-- Third entity with pivot key value 2. -/
def exE3 : PEntity := ⟨[(("n"), .vStr ("c"))], some [(("k"), .vNum 2)]⟩

/-- C1: the claim says where(f, v) maps f to an equality (or $in)
constraint and where(f, op, v) maps f to an explicit operator
constraint.  The code disagrees: the switch in where has no break, so
every entry falls through to case 1, which recomputes cond as the key
when the key is an object and as an empty object otherwise; a string
field name therefore leaves the accumulated condition tree unchanged
(and _object(key, _object(op, val)) would have dropped the field name
anyway, since the inner result is always an object).  Each evaluation
below leaves the tree empty where the claim requires a constraint. -/
theorem c1_where_string_key_dropped :
    ((Query.new .undefinedDrv).where2 (.vStr ("name")) (.val (.vStr ("John"))))._where = [] ∧
    ((Query.new .undefinedDrv).where2 (.vStr ("tags")) (.val (.vArr [.vNum 1, .vNum 2])))._where = [] ∧
    ((Query.new .undefinedDrv).where3 (.vStr ("status")) (.vStr ("$ne")) (.val (.vStr ("draft"))))._where = [] :=
  ⟨rfl, rfl, rfl⟩

/-- C2: the claim says detach issues one destroy whose descriptor
restricts the pivot source to localKey = parent id, plus otherKey $in
ids when ids are given.  The code does issue exactly one destroy, but
its descriptor is the empty object: the localKey filter of
_newPivotQuery and the whereIn on otherKey both go through
Query.prototype.where with a string key, which the switch fall-through
turns into no-ops, so no where clause is assembled at all. -/
theorem c2_detach_descriptor_missing_where :
    exRel.detachDestroyDescriptors .noArg = [.vObj []] ∧
    exRel.detachDestroyDescriptors (.value (.vArr [.vNum 4, .vNum 5])) = [.vObj []] ∧
    exRel.detachDestroyDescriptors (.value (.vNum 4)) = [.vObj []] ∧
    exRel.detachDestroyDescriptors (.entity exRelated4) = [.vObj []] :=
  ⟨rfl, rfl, rfl, rfl⟩

/-- C3: the claim says take(n) puts limit, skip(n) puts offset and
distinct() puts the distinct flag into the assembled descriptor.  The
builder fields are set (last conjunct: _limit becomes the numeric
coercion of the argument), but assemble drops every piece that
underscore isEmpty accepts, and isEmpty is true for every number and
every boolean, so limit, offset and distinct never reach the
descriptor.  The omission half of the claim does hold: an untouched
builder assembles to the empty descriptor. -/
theorem c3_descriptor_drops_limit_offset_distinct :
    ((Query.new .undefinedDrv).take (.vNum 5)).assemble = .vObj [] ∧
    ((Query.new .undefinedDrv).skip (.vNum 3)).assemble = .vObj [] ∧
    ((Query.new .undefinedDrv).distinct).assemble = .vObj [] ∧
    (Query.new .undefinedDrv).assemble = .vObj [] ∧
    ((Query.new .undefinedDrv).take (.vNum 5))._limit = .vNum 5 :=
  ⟨rfl, rfl, rfl, rfl, rfl⟩

/-- C4: the fetch half of the claim holds: whenever the driver fetch
resolves to an empty or absent result, fetch rejects with ModelNotFound
for every builder, because the emptiness check rejects before the tap
on loadRelated runs.  The fetchAll half is broken in the code: even
when the driver fetchAll resolves to the empty sequence, fetchAll never
resolves - loadRelated hands the key array of this._rels to the
instance map of the promise library where the mapper function belongs,
and that call rejects with a TypeError for every builder, declared
relations or not, so fetchAll rejects through its tap instead of
resolving to the empty entity sequence (third conjunct: the claimed
resolution fails already at a fresh builder with no relations). -/
theorem c4_fetch_modelnotfound_fetchall_rejects :
    (∀ (q : Query) (df : JVal → JVal),
      isEmptyJ (df q.assemble) = true →
      Query.fetchOutcome q df = .rejected .modelNotFoundError) ∧
    (∀ (q : Query) (dfa : JVal → List JVal),
      dfa q.assemble = [] →
      Query.fetchAllOutcome q dfa
        = .rejected (.typeError ("expecting a function but got [object Array]"))) ∧
    ¬ (Query.fetchAllOutcome (ModelInst.newQuery exParent) (fun _ => [])
        = .resolved ([] : List ModelInst)) := by
  refine ⟨?_, ?_, fun h => nomatch h⟩
  · intro q df h
    unfold Query.fetchOutcome
    simp only [h, if_true]
  · intro q dfa hd
    unfold Query.fetchAllOutcome
    rw [hd]
    cases q.model <;> rfl

/-- C4 witness: the theorem applied at a fresh builder with a driver
whose fetch resolves to undefined, and at a builder made by newQuery
with a driver whose fetchAll resolves to the empty sequence. -/
theorem c4_rejects_witness :
    Query.fetchOutcome (Query.new .undefinedDrv) (fun _ => .vUndefined)
      = .rejected .modelNotFoundError ∧
    Query.fetchAllOutcome (ModelInst.newQuery exParent) (fun _ => [])
      = .rejected (.typeError ("expecting a function but got [object Array]")) :=
  ⟨c4_fetch_modelnotfound_fetchall_rejects.1 (Query.new .undefinedDrv)
      (fun _ => .vUndefined) rfl,
   c4_fetch_modelnotfound_fetchall_rejects.2.1 (ModelInst.newQuery exParent)
      (fun _ => []) rfl⟩

/-- C5: newQuery passes the model instance as the first constructor
argument, and the Query constructor declares a single driver parameter,
so the read-only driver property holds the model instance itself (not
the class-level driver passed second, which is dropped), and the model
property stays unset until setModel is called. -/
theorem c5_newquery_driver_is_model_instance (m : ModelInst) :
    m.newQuery = Query.new (QueryDriver.inst m) ∧
    (m.newQuery).driver = QueryDriver.inst m ∧
    (m.newQuery).model = none ∧
    ((m.newQuery).setModel m).model = some m :=
  ⟨rfl, rfl, rfl, rfl⟩

/-- C6: the claim says _applyEagerConstraints leaves the relation query
constrained so that the related primary key is $in a pivot sub-query
descriptor.  The code computes the pivot sub-query (and assembles it as
a sub-query value), but the final this.query.whereIn goes through
Query.prototype.where with the string related key name, which the
switch fall-through turns into a no-op: the relation query is left
untouched for every relation and every parent set, and in particular
the example relation still assembles the empty descriptor. -/
theorem c6_eager_constraints_leave_query_unconstrained :
    (∀ (r : BelongsToMany) (ms : List ModelInst),
      (r.applyEagerConstraints ms).query = r.query) ∧
    (exRel.applyEagerConstraints [exParentA, exParentB]).query.assemble
      = .vObj [] :=
  ⟨fun _ _ => rfl, rfl⟩

/-- C7: the claim says buildDictionary groups the entities by the value
of the embedded pivot attribute and strips the pivot attribute from
every entity.  The grouping half holds (keys are the string coercions
JavaScript object keys are), but nothing is stripped:
cleanPivotAttributes returns its argument unchanged for every input, so
the grouped output holds the original entities, pivot sub-record still
present. -/
theorem c7_builddictionary_groups_but_keeps_pivot :
    buildDictionary [exE1, exE2, exE3] ("k")
      = [(("1"), [exE1, exE2]), (("2"), [exE3])] ∧
    (∀ ms : List PEntity, cleanPivotAttributes ms = ms) ∧
    exE1.pivotAttrs = some [(("k"), .vNum 1)] :=
  ⟨rfl, fun _ => rfl, rfl⟩

/-- The argument normalization shared by select and order: a single
array argument is the field list, otherwise all arguments count. -/
def selectArgsOf (field : JVal) (rest : List JVal) : List JVal :=
  match field with
  | .vArr xs => xs
  | f => f :: rest

/-- One select call accumulates the deduplicated concatenation of the
previous fields and the normalized arguments. -/
theorem select_one (q : Query) (f : JVal) (r : List JVal) :
    (q.select f r)._select = uniqJS jsSameVal (q._select ++ selectArgsOf f r) := by
  cases f <;> rfl

/-- One order call accumulates the deduplicated concatenation of the
previous fields and the normalized arguments. -/
theorem order_one (q : Query) (f : JVal) (r : List JVal) :
    (q.order f r)._order = uniqJS jsSameVal (q._order ++ selectArgsOf f r) := by
  cases f <;> rfl

/-- Deduplicating again after appending adds nothing: uniq of
(uniq xs ++ ys) equals uniq of (xs ++ ys), for any seen prefix. -/
theorem uniqAux_idem (eqb : α → α → Bool) (xs : List α) :
    ∀ (seen : List α) (ys : List α),
      uniqAux eqb seen (uniqAux eqb seen xs ++ ys) = uniqAux eqb seen (xs ++ ys) := by
  induction xs with
  | nil => intro seen ys; rfl
  | cons x xs ih =>
    intro seen ys
    by_cases h : seen.any (eqb x) = true
    · show uniqAux eqb seen
        ((if seen.any (eqb x) then uniqAux eqb seen xs
          else x :: uniqAux eqb (x :: seen) xs) ++ ys) = _
      rw [if_pos h]
      show _ = uniqAux eqb seen (x :: (xs ++ ys))
      show _ = if seen.any (eqb x) then uniqAux eqb seen (xs ++ ys)
        else x :: uniqAux eqb (x :: seen) (xs ++ ys)
      rw [if_pos h]
      exact ih seen ys
    · show uniqAux eqb seen
        ((if seen.any (eqb x) then uniqAux eqb seen xs
          else x :: uniqAux eqb (x :: seen) xs) ++ ys) = _
      rw [if_neg h]
      show (if seen.any (eqb x) then uniqAux eqb seen (uniqAux eqb (x :: seen) xs ++ ys)
        else x :: uniqAux eqb (x :: seen) (uniqAux eqb (x :: seen) xs ++ ys)) = _
      rw [if_neg h]
      show _ = if seen.any (eqb x) then uniqAux eqb seen (xs ++ ys)
        else x :: uniqAux eqb (x :: seen) (xs ++ ys)
      rw [if_neg h, ih (x :: seen) ys]

/-- C8: select and order accept a sequence or variadic arguments
(selectArgsOf covers both shapes), and a second call adds to the first,
yielding the deduplicated insertion-ordered union of everything given
so far; in particular select of a then of b, a accumulates exactly
[a, b], and likewise for order. -/
theorem c8_select_order_accumulate :
    (∀ (q : Query) (f1 : JVal) (r1 : List JVal) (f2 : JVal) (r2 : List JVal),
      ((q.select f1 r1).select f2 r2)._select
        = uniqJS jsSameVal (q._select ++ (selectArgsOf f1 r1 ++ selectArgsOf f2 r2)) ∧
      ((q.order f1 r1).order f2 r2)._order
        = uniqJS jsSameVal (q._order ++ (selectArgsOf f1 r1 ++ selectArgsOf f2 r2))) ∧
    (((Query.new .undefinedDrv).select (.vStr ("a")) []).select (.vStr ("b")) [.vStr ("a")])._select
      = [.vStr ("a"), .vStr ("b")] ∧
    (((Query.new .undefinedDrv).order (.vStr ("a")) []).order (.vStr ("b")) [.vStr ("a")])._order
      = [.vStr ("a"), .vStr ("b")] := by
  refine ⟨fun q f1 r1 f2 r2 => ⟨?_, ?_⟩, rfl, rfl⟩
  · rw [select_one, select_one, uniqJS, uniqJS, uniqAux_idem, List.append_assoc]
    rfl
  · rw [order_one, order_one, uniqJS, uniqJS, uniqAux_idem, List.append_assoc]
    rfl

/-- C10: where(f, vs) with a sequence value leaves the accumulated
condition tree identical to where(f, $in, vs): the two-argument entry
computes op as $in for a sequence and falls into the three-argument
body, so the two calls run the same code.  (Both in fact leave the tree
exactly as it was, the fall-through no-op recorded at C1; the equality
the claim states holds.) -/
theorem c10_where_seq_matches_wherein (q : Query) (f : String) (vs : List JVal) :
    (q.where2 (.vStr f) (.val (.vArr vs)))._where
      = (q.where3 (.vStr f) (.vStr ("$in")) (.val (.vArr vs)))._where ∧
    (q.where2 (.vStr f) (.val (.vArr vs)))._where = q._where :=
  ⟨rfl, rfl⟩

/-!
Heap model for the snapshot claim.  JavaScript objects and arrays live
at addresses in a heap; primitives are immediate.  The builder state
holds the address of its _where object and of its current _select and
_order arrays; setters that rebind (select, order) allocate new arrays,
while where mutates the _where object in place through extend, exactly
as the JavaScript does.  assemble allocates defensive copies (slice for
arrays, the underscore clone for objects - shallow: the copied cells
share the references they hold) and a fresh descriptor object. -/

/-- A heap-level JavaScript value: a primitive or a reference into the
object or array space. -/
inductive HVal where
  | hstr (s : String)
  | hnum (n : Int)
  | hnan
  | hbool (b : Bool)
  | hUndefined
  | hnull
  | hobj (a : Nat)
  | harr (a : Nat)
deriving DecidableEq

/-- An object cell: insertion-ordered fields holding heap values. -/
abbrev OCell : Type := List (String × HVal)

/-- The heap: object cells and array cells, addressed by position; an
address is fresh when it equals the current length. -/
structure Heap where
  objs : List OCell
  arrs : List (List HVal)

/-- Read an object cell (unallocated addresses read as empty). -/
def Heap.getObj (h : Heap) (a : Nat) : OCell := (h.objs[a]?).getD []

/-- Read an array cell. -/
def Heap.getArr (h : Heap) (a : Nat) : List HVal := (h.arrs[a]?).getD []

/-- Allocate a fresh object cell, returning its address. -/
def Heap.allocObj (h : Heap) (c : OCell) : Heap × Nat :=
  (⟨h.objs ++ [c], h.arrs⟩, h.objs.length)

/-- Allocate a fresh array cell, returning its address. -/
def Heap.allocArr (h : Heap) (c : List HVal) : Heap × Nat :=
  (⟨h.objs, h.arrs ++ [c]⟩, h.arrs.length)

/-- Overwrite an object cell in place. -/
def Heap.setObj (h : Heap) (a : Nat) (c : OCell) : Heap :=
  ⟨h.objs.set a c, h.arrs⟩

/-- underscore isObject at the heap level. -/
def isObjectH : HVal → Bool
  | .hobj _ => true
  | .harr _ => true
  | _ => false

/-- underscore isArray at the heap level. -/
def isArrayH : HVal → Bool
  | .harr _ => true
  | _ => false

/-- underscore isEmpty at the heap level. -/
def isEmptyH (h : Heap) : HVal → Bool
  | .hUndefined => true
  | .hnull => true
  | .hstr s => s.isEmpty
  | .hnum _ => true
  | .hnan => true
  | .hbool _ => true
  | .harr a => (h.getArr a).isEmpty
  | .hobj a => (h.getObj a).isEmpty

/-- Property-name coercion at the heap level. -/
def propKeyH : HVal → String
  | .hstr s => s
  | .hnum n => toString n
  | .hnan => ("NaN")
  | .hbool b => toString b
  | .hUndefined => ("undefined")
  | .hnull => ("null")
  | .hobj _ => ("object")
  | .harr _ => ("array")

/-- Number coercion at the heap level (references coerce through
valueOf and toString; modelled as NaN, which no claim exercises). -/
def jsNumberH : HVal → HVal
  | .hnum n => .hnum n
  | .hnan => .hnan
  | .hbool b => .hnum (if b then 1 else 0)
  | .hnull => .hnum 0
  | .hstr s => if s.isEmpty then .hnum 0 else
      match s.toInt? with
      | some n => .hnum n
      | none => .hnan
  | _ => .hnan

/-!
A JavaScript literal, as written at a call site: evaluating it
materializes fresh objects and arrays in the heap.  Elements and fields
are separate mutual inductives so that materialization is structurally
recursive.
-/
mutual
/-- A literal value as written at a call site. -/
inductive JTree where
  | tstr (s : String)
  | tnum (n : Int)
  | tbool (b : Bool)
  | tUndefined
  | tnull
  | tarr (xs : TElems)
  | tobj (fs : TFields)
inductive TElems where
  | tnil
  | tcons (hd : JTree) (tl : TElems)
inductive TFields where
  | fnil
  | fcons (k : String) (v : JTree) (tl : TFields)
end

mutual
/-- Evaluate a literal: primitives are immediate, arrays and objects
allocate bottom-up, children first. -/
def allocTree (h : Heap) : JTree → Heap × HVal
  | .tstr s => (h, .hstr s)
  | .tnum n => (h, .hnum n)
  | .tbool b => (h, .hbool b)
  | .tUndefined => (h, .hUndefined)
  | .tnull => (h, .hnull)
  | .tarr xs =>
      let p := allocElems h xs
      let p2 := p.1.allocArr p.2
      (p2.1, .harr p2.2)
  | .tobj fs =>
      let p := allocFields h fs
      let p2 := p.1.allocObj p.2
      (p2.1, .hobj p2.2)

/-- Evaluate a list of element literals left to right. -/
def allocElems (h : Heap) : TElems → Heap × List HVal
  | .tnil => (h, [])
  | .tcons x xs =>
      let p := allocTree h x
      let p2 := allocElems p.1 xs
      (p2.1, p.2 :: p2.2)

/-- Evaluate a list of field literals left to right. -/
def allocFields (h : Heap) : TFields → Heap × OCell
  | .fnil => (h, [])
  | .fcons k v fs =>
      let p := allocTree h v
      let p2 := allocFields p.1 fs
      (p2.1, (k, p.2) :: p2.2)
end

/-- Query builder state in the heap model: the addresses of the _where
object and of the current _select and _order arrays, plus the primitive
pieces. -/
structure HQuery where
  whereRef : Nat
  selectRef : Nat
  orderRef : Nat
  distinctF : Bool
  offsetV : HVal
  limitV : HVal
  fromV : HVal

/-- The Query constructor in the heap model: allocates this._where and
this._rels (the latter unused by the modelled operations) and the empty
_select and _order arrays, in source order. -/
def HQuery.init (h : Heap) : Heap × HQuery :=
  let pw := h.allocObj []
  let pr := pw.1.allocObj []
  let ps := pr.1.allocArr []
  let po := ps.1.allocArr []
  (po.1, ⟨pw.2, ps.2, po.2, false, .hUndefined, .hUndefined, .hUndefined⟩)

/-- The own enumerable properties an extend source contributes: object
fields, array indices, nothing for primitives. -/
def extendSourceFields (h : Heap) : HVal → OCell
  | .hobj a => h.getObj a
  | .harr a => ((h.getArr a).enum).map (fun p => (toString p.1, p.2))
  | _ => []

/-- underscore extend onto the object at address w: the cell is
rewritten in place, last write wins per key. -/
def Heap.extendAt (h : Heap) (w : Nat) (src : HVal) : Heap :=
  h.setObj w
    ((extendSourceFields h src).foldl (fun acc kv => setKey acc kv.1 kv.2) (h.getObj w))

/-- The conditional object of the _object helper and of case 1 of the
where switch: an object value passes through, anything else allocates a
fresh object holding the given cell. -/
def condObject (h : Heap) (v : HVal) (c : OCell) : Heap × HVal :=
  if isObjectH v then (h, v)
  else
    let pa := h.allocObj c
    (pa.1, .hobj pa.2)

/-- The shared tail of Query.prototype.where in the heap model
(continued): case 3 computes the dead cond through the _object helper
(condObject with the one-field cell), the break-less switch falls into
case 1, which recomputes cond from the key alone (condObject with the
empty cell), and the result is extended onto the _where object in
place. -/
def whereTail (h : Heap) (q : HQuery) (kv opv vv : HVal) : Heap × HQuery :=
  let p1 := condObject h vv [(propKeyH opv, vv)]
  let p2 := condObject p1.1 kv []
  (p2.1.extendAt q.whereRef p2.2, q)

/-- The builder calls the snapshot claim ranges over, with literal
arguments (sub-query values do not occur among them: a constraint call
made after the snapshot carries data).  where2 is the two-argument
where, where3 the explicit-operator form. -/
inductive QOp where
  | opWhere1 (map : JTree)
  | opWhere2 (key : JTree) (v : JTree)
  | opWhere3 (key : JTree) (op : JTree) (v : JTree)
  | opWhereIn (key : JTree) (v : JTree)
  | opOrWhere (clauses : TElems)
  | opSelect (field : JTree) (rest : TElems)
  | opOrder (field : JTree) (rest : TElems)
  | opFrom (s : JTree)
  | opTake (n : JTree)
  | opSkip (n : JTree)
  | opDistinct

/-- One builder call in the heap model.  Arguments materialize first
(JavaScript evaluates arguments before the call), then the operation
runs as in the source: the where family extends the _where object in
place, select and order allocate a fresh deduplicated array and rebind,
from, take, skip and distinct update primitive state. -/
def stepOp (h : Heap) (q : HQuery) : QOp → Heap × HQuery
  | .opWhere1 map =>
      let pk := allocTree h map
      let pc := condObject pk.1 pk.2 []
      (pc.1.extendAt q.whereRef pc.2, q)
  | .opWhere2 key v =>
      let pk := allocTree h key
      let pv := allocTree pk.1 v
      let opv : HVal := .hstr (if isArrayH pv.2 then ("$in") else ("$eq"))
      whereTail pv.1 q pk.2 opv pv.2
  | .opWhere3 key op v =>
      let pk := allocTree h key
      let po := allocTree pk.1 op
      let pv := allocTree po.1 v
      whereTail pv.1 q pk.2 po.2 pv.2
  | .opWhereIn key v =>
      let pk := allocTree h key
      let pv := allocTree pk.1 v
      whereTail pv.1 q pk.2 (.hstr ("$in")) pv.2
  | .opOrWhere cls =>
      let pe := allocElems h cls
      let pa := pe.1.allocArr pe.2
      let pb := pa.1.allocObj [(("$or"), HVal.harr pa.2)]
      (pb.1.extendAt q.whereRef (.hobj pb.2), q)
  | .opSelect field rest =>
      let pf := allocTree h field
      let pr := allocElems pf.1 rest
      let args : List HVal :=
        match pf.2 with
        | .harr a => pr.1.getArr a
        | v => v :: pr.2
      let pn := pr.1.allocArr (uniqJS (fun a b => a == b) (pr.1.getArr q.selectRef ++ args))
      (pn.1, { q with selectRef := pn.2 })
  | .opOrder field rest =>
      let pf := allocTree h field
      let pr := allocElems pf.1 rest
      let args : List HVal :=
        match pf.2 with
        | .harr a => pr.1.getArr a
        | v => v :: pr.2
      let pn := pr.1.allocArr (uniqJS (fun a b => a == b) (pr.1.getArr q.orderRef ++ args))
      (pn.1, { q with orderRef := pn.2 })
  | .opFrom s =>
      let ps := allocTree h s
      (ps.1, { q with fromV := ps.2 })
  | .opTake n =>
      let pn := allocTree h n
      (pn.1, { q with limitV := jsNumberH pn.2 })
  | .opSkip n =>
      let pn := allocTree h n
      (pn.1, { q with offsetV := jsNumberH pn.2 })
  | .opDistinct => (h, { q with distinctF := true })

/-- A sequence of builder calls. -/
def applyOps (h : Heap) (q : HQuery) : List QOp → Heap × HQuery
  | [] => (h, q)
  | op :: ops =>
      let p := stepOp h q op
      applyOps p.1 p.2 ops

/-- One property of the descriptor under assembly: skipped when
underscore isEmpty accepts it; an array piece is sliced and then cloned
by underscore clone, which slices again (two fresh copies, the second
kept); an object piece is shallow-cloned; the copied cells share the
references they hold with the originals. -/
def assemblePiece (st : Heap × OCell) (name : String) (v : HVal) : Heap × OCell :=
  if isEmptyH st.1 v then st
  else
    match v with
    | .harr a =>
        let p1 := st.1.allocArr (st.1.getArr a)
        let p2 := p1.1.allocArr (p1.1.getArr p1.2)
        (p2.1, st.2 ++ [(name, .harr p2.2)])
    | .hobj a =>
        let p1 := st.1.allocObj (st.1.getObj a)
        (p1.1, st.2 ++ [(name, .hobj p1.2)])
    | v => (st.1, st.2 ++ [(name, v)])

/-- Query.prototype.assemble in the heap model: the seven pieces in
source order, then the fresh descriptor object; returns the heap and
the descriptor address. -/
def hassemble (h : Heap) (q : HQuery) : Heap × Nat :=
  let st : Heap × OCell := (h, [])
  let st := assemblePiece st ("select") (.harr q.selectRef)
  let st := assemblePiece st ("distinct") (.hbool q.distinctF)
  let st := assemblePiece st ("from") q.fromV
  let st := assemblePiece st ("where") (.hobj q.whereRef)
  let st := assemblePiece st ("order") (.harr q.orderRef)
  let st := assemblePiece st ("offset") q.offsetV
  let st := assemblePiece st ("limit") q.limitV
  st.1.allocObj st.2

/-- The pure tree a heap value denotes, for stating that a descriptor
is unchanged: what a structural walk of the object graph observes. -/
inductive PTree where
  | pstr (s : String)
  | pnum (n : Int)
  | pnan
  | pbool (b : Bool)
  | pUndefined
  | pnull
  | pobj (fs : List (String × PTree))
  | parr (xs : List PTree)

/-- Fuel-indexed reading of a heap value as a pure tree. -/
def denoteV : Nat → Heap → HVal → Option PTree
  | 0, _, _ => none
  | _ + 1, _, .hstr s => some (.pstr s)
  | _ + 1, _, .hnum n => some (.pnum n)
  | _ + 1, _, .hnan => some .pnan
  | _ + 1, _, .hbool b => some (.pbool b)
  | _ + 1, _, .hUndefined => some .pUndefined
  | _ + 1, _, .hnull => some .pnull
  | fuel + 1, h, .hobj a =>
      ((h.getObj a).mapM
        (fun kv => (denoteV fuel h kv.2).map (fun t => (kv.1, t)))).map PTree.pobj
  | fuel + 1, h, .harr a =>
      ((h.getArr a).mapM (denoteV fuel h)).map PTree.parr

/-- One heap extends another when both spaces only grew at the end:
every allocation has this shape, and no existing cell changes. -/
def HeapExtends (h h2 : Heap) : Prop :=
  ∃ e1 e2, h2.objs = h.objs ++ e1 ∧ h2.arrs = h.arrs ++ e2

/-- Extension is reflexive. -/
theorem HeapExtends.hrefl (h : Heap) : HeapExtends h h :=
  ⟨[], [], by simp, by simp⟩

/-- Extension is transitive. -/
theorem HeapExtends.htrans {h1 h2 h3 : Heap}
    (a : HeapExtends h1 h2) (b : HeapExtends h2 h3) : HeapExtends h1 h3 := by
  obtain ⟨e1, e2, ho, ha⟩ := a
  obtain ⟨f1, f2, ho2, ha2⟩ := b
  exact ⟨e1 ++ f1, e2 ++ f2, by rw [ho2, ho, List.append_assoc],
    by rw [ha2, ha, List.append_assoc]⟩

/-- Extension only grows the object space. -/
theorem HeapExtends.objs_le {h h2 : Heap} (he : HeapExtends h h2) :
    h.objs.length ≤ h2.objs.length := by
  obtain ⟨e1, e2, ho, ha⟩ := he
  rw [ho, List.length_append]
  omega

/-- Extension only grows the array space. -/
theorem HeapExtends.arrs_le {h h2 : Heap} (he : HeapExtends h h2) :
    h.arrs.length ≤ h2.arrs.length := by
  obtain ⟨e1, e2, ho, ha⟩ := he
  rw [ha, List.length_append]
  omega

/-- Reading an already-allocated object cell through an extension. -/
theorem HeapExtends.getObj_eq {h h2 : Heap} (he : HeapExtends h h2)
    {a : Nat} (ha : a < h.objs.length) : h2.getObj a = h.getObj a := by
  obtain ⟨e1, e2, ho, hr⟩ := he
  unfold Heap.getObj
  rw [ho, List.getElem?_append, if_pos ha]

/-- Reading an already-allocated array cell through an extension. -/
theorem HeapExtends.getArr_eq {h h2 : Heap} (he : HeapExtends h h2)
    {a : Nat} (ha : a < h.arrs.length) : h2.getArr a = h.getArr a := by
  obtain ⟨e1, e2, ho, hr⟩ := he
  unfold Heap.getArr
  rw [hr, List.getElem?_append, if_pos ha]

/-- Allocating an object cell extends the heap. -/
theorem Heap.allocObj_extends (h : Heap) (c : OCell) :
    HeapExtends h (h.allocObj c).1 :=
  ⟨[c], [], rfl, by simp [Heap.allocObj]⟩

/-- Allocating an array cell extends the heap. -/
theorem Heap.allocArr_extends (h : Heap) (c : List HVal) :
    HeapExtends h (h.allocArr c).1 :=
  ⟨[], [c], by simp [Heap.allocArr], rfl⟩

/-- Reading back a just-allocated object cell. -/
theorem Heap.getObj_allocObj_self (h : Heap) (c : OCell) :
    (h.allocObj c).1.getObj (h.allocObj c).2 = c := by
  unfold Heap.allocObj Heap.getObj
  simp

/-- Reading back a just-allocated array cell. -/
theorem Heap.getArr_allocArr_self (h : Heap) (c : List HVal) :
    (h.allocArr c).1.getArr (h.allocArr c).2 = c := by
  unfold Heap.allocArr Heap.getArr
  simp

mutual
/-- Materializing a literal only allocates. -/
theorem allocTree_extends (h : Heap) (t : JTree) : HeapExtends h (allocTree h t).1 :=
  match t with
  | .tstr _ => HeapExtends.hrefl h
  | .tnum _ => HeapExtends.hrefl h
  | .tbool _ => HeapExtends.hrefl h
  | .tUndefined => HeapExtends.hrefl h
  | .tnull => HeapExtends.hrefl h
  | .tarr xs => (allocElems_extends h xs).htrans (Heap.allocArr_extends _ _)
  | .tobj fs => (allocFields_extends h fs).htrans (Heap.allocObj_extends _ _)

/-- Materializing element literals only allocates. -/
theorem allocElems_extends (h : Heap) (ts : TElems) : HeapExtends h (allocElems h ts).1 :=
  match ts with
  | .tnil => HeapExtends.hrefl h
  | .tcons x xs => (allocTree_extends h x).htrans (allocElems_extends (allocTree h x).1 xs)

/-- Materializing field literals only allocates. -/
theorem allocFields_extends (h : Heap) (fs : TFields) : HeapExtends h (allocFields h fs).1 :=
  match fs with
  | .fnil => HeapExtends.hrefl h
  | .fcons _ v gs => (allocTree_extends h v).htrans (allocFields_extends (allocTree h v).1 gs)
end

/-- The frame of the snapshot argument: between two heaps, the only
existing object cell that may differ is the one at the _where address,
no existing array cell differs, and both spaces only grow. -/
def FrameLe (w : Nat) (h h2 : Heap) : Prop :=
  h.objs.length ≤ h2.objs.length ∧ h.arrs.length ≤ h2.arrs.length ∧
  (∀ a, a < h.objs.length → a ≠ w → h2.getObj a = h.getObj a) ∧
  (∀ a, a < h.arrs.length → h2.getArr a = h.getArr a)

/-- The frame is reflexive. -/
theorem FrameLe.frefl (w : Nat) (h : Heap) : FrameLe w h h :=
  ⟨Nat.le.refl, Nat.le.refl, fun _ _ _ => Eq.refl _, fun _ _ => Eq.refl _⟩

/-- The frame is transitive. -/
theorem FrameLe.ftrans {w : Nat} {h1 h2 h3 : Heap}
    (a : FrameLe w h1 h2) (b : FrameLe w h2 h3) : FrameLe w h1 h3 := by
  obtain ⟨lo1, la1, go1, ga1⟩ := a
  obtain ⟨lo2, la2, go2, ga2⟩ := b
  refine ⟨Nat.le_trans lo1 lo2, Nat.le_trans la1 la2, ?_, ?_⟩
  · intro a ha hw
    rw [go2 a (Nat.lt_of_lt_of_le ha lo1) hw, go1 a ha hw]
  · intro a ha
    rw [ga2 a (Nat.lt_of_lt_of_le ha la1), ga1 a ha]

/-- An extension satisfies every frame. -/
theorem HeapExtends.frameLe {h h2 : Heap} (he : HeapExtends h h2) (w : Nat) :
    FrameLe w h h2 :=
  ⟨he.objs_le, he.arrs_le, fun _ ha _ => he.getObj_eq ha, fun _ ha => he.getArr_eq ha⟩

/-- Overwriting the object cell at w stays inside the frame at w. -/
theorem Heap.setObj_frameLe (h : Heap) (w : Nat) (c : OCell) :
    FrameLe w h (h.setObj w c) := by
  refine ⟨?_, Nat.le.refl, ?_, fun _ _ => Eq.refl _⟩
  · unfold Heap.setObj
    simp
  · intro a ha hw
    unfold Heap.setObj Heap.getObj
    rw [List.getElem?_set_ne (Ne.symm hw)]

/-- Extending onto the _where object stays inside the frame. -/
theorem Heap.extendAt_frameLe (h : Heap) (w : Nat) (src : HVal) :
    FrameLe w h (h.extendAt w src) :=
  Heap.setObj_frameLe h w _

/-- A heap value is ok for bounds no and na and the _where address w
when its reference (if any) stays below the bound and, for object
references, differs from w.  Primitives are always ok. -/
def HVal.okB (no na w : Nat) : HVal → Bool
  | .hobj a => decide (a < no) && decide (a ≠ w)
  | .harr a => decide (a < na)
  | _ => true

/-- Every value of an object cell is ok. -/
def cellOk (no na w : Nat) (c : OCell) : Bool :=
  c.all (fun kv => HVal.okB no na w kv.2)

/-- Every value of an array cell is ok. -/
def arrOk (no na w : Nat) (c : List HVal) : Bool :=
  c.all (HVal.okB no na w)

/-- Every cell of the heap is ok: no stored reference dangles and no
stored object reference points at the _where object. -/
def Heap.okHeap (h : Heap) (w : Nat) : Bool :=
  h.objs.all (cellOk h.objs.length h.arrs.length w) &&
  h.arrs.all (arrOk h.objs.length h.arrs.length w)

/-- Value ok is monotone in the bounds. -/
theorem HVal.okB_mono {no na no2 na2 w : Nat} (h1 : no ≤ no2) (h2 : na ≤ na2)
    {v : HVal} (hv : HVal.okB no na w v = true) : HVal.okB no2 na2 w v = true := by
  match v with
  | .hobj a =>
    simp only [HVal.okB, Bool.and_eq_true, decide_eq_true_eq] at hv ⊢
    exact ⟨by omega, hv.2⟩
  | .harr a =>
    simp only [HVal.okB, decide_eq_true_eq] at hv ⊢
    omega
  | .hstr s => exact hv
  | .hnum n => exact hv
  | .hnan => exact hv
  | .hbool b => exact hv
  | .hUndefined => exact hv
  | .hnull => exact hv

/-- Cell ok is monotone in the bounds. -/
theorem cellOk_mono {no na no2 na2 w : Nat} (h1 : no ≤ no2) (h2 : na ≤ na2)
    {c : OCell} (hc : cellOk no na w c = true) : cellOk no2 na2 w c = true := by
  simp only [cellOk, List.all_eq_true] at hc ⊢
  exact fun kv hkv => HVal.okB_mono h1 h2 (hc kv hkv)

/-- Array-cell ok is monotone in the bounds. -/
theorem arrOk_mono {no na no2 na2 w : Nat} (h1 : no ≤ no2) (h2 : na ≤ na2)
    {c : List HVal} (hc : arrOk no na w c = true) : arrOk no2 na2 w c = true := by
  simp only [arrOk, List.all_eq_true] at hc ⊢
  exact fun v hv => HVal.okB_mono h1 h2 (hc v hv)

/-- Reading any object cell of an ok heap yields an ok cell (an
unallocated address reads as the empty cell, which is ok). -/
theorem Heap.okHeap_getObj {h : Heap} {w : Nat} (hh : h.okHeap w = true) (a : Nat) :
    cellOk h.objs.length h.arrs.length w (h.getObj a) = true := by
  by_cases ha : a < h.objs.length
  · have hh2 := hh
    rw [Heap.okHeap, Bool.and_eq_true] at hh2
    have hall := hh2.1
    rw [List.all_eq_true] at hall
    unfold Heap.getObj
    rw [List.getElem?_eq_getElem ha]
    exact hall _ (List.getElem_mem ha)
  · unfold Heap.getObj
    rw [List.getElem?_eq_none (Nat.le_of_not_lt ha)]
    rfl

/-- Reading any array cell of an ok heap yields an ok cell. -/
theorem Heap.okHeap_getArr {h : Heap} {w : Nat} (hh : h.okHeap w = true) (a : Nat) :
    arrOk h.objs.length h.arrs.length w (h.getArr a) = true := by
  by_cases ha : a < h.arrs.length
  · have hh2 := hh
    rw [Heap.okHeap, Bool.and_eq_true] at hh2
    have hall := hh2.2
    rw [List.all_eq_true] at hall
    unfold Heap.getArr
    rw [List.getElem?_eq_getElem ha]
    exact hall _ (List.getElem_mem ha)
  · unfold Heap.getArr
    rw [List.getElem?_eq_none (Nat.le_of_not_lt ha)]
    rfl

/-- Allocating an ok object cell preserves heap ok. -/
theorem Heap.okHeap_allocObj {h : Heap} {w : Nat} (hh : h.okHeap w = true)
    {c : OCell} (hc : cellOk h.objs.length h.arrs.length w c = true) :
    (h.allocObj c).1.okHeap w = true := by
  rw [Heap.okHeap, Bool.and_eq_true] at hh
  obtain ⟨h1, h2⟩ := hh
  rw [List.all_eq_true] at h1 h2
  unfold Heap.allocObj Heap.okHeap
  rw [Bool.and_eq_true, List.all_eq_true, List.all_eq_true]
  constructor
  · intro cell hcell
    simp only [List.length_append, List.length_cons, List.length_nil]
    rcases List.mem_append.mp hcell with hm | hm
    · exact cellOk_mono (by omega) (by omega) (h1 cell hm)
    · have : cell = c := by simpa using hm
      subst this
      exact cellOk_mono (by omega) (by omega) hc
  · intro cell hcell
    simp only [List.length_append, List.length_cons, List.length_nil]
    exact arrOk_mono (by omega) (by omega) (h2 cell hcell)

/-- Allocating an ok array cell preserves heap ok. -/
theorem Heap.okHeap_allocArr {h : Heap} {w : Nat} (hh : h.okHeap w = true)
    {c : List HVal} (hc : arrOk h.objs.length h.arrs.length w c = true) :
    (h.allocArr c).1.okHeap w = true := by
  rw [Heap.okHeap, Bool.and_eq_true] at hh
  obtain ⟨h1, h2⟩ := hh
  rw [List.all_eq_true] at h1 h2
  unfold Heap.allocArr Heap.okHeap
  rw [Bool.and_eq_true, List.all_eq_true, List.all_eq_true]
  constructor
  · intro cell hcell
    simp only [List.length_append, List.length_cons, List.length_nil]
    exact cellOk_mono (by omega) (by omega) (h1 cell hcell)
  · intro cell hcell
    simp only [List.length_append, List.length_cons, List.length_nil]
    rcases List.mem_append.mp hcell with hm | hm
    · exact arrOk_mono (by omega) (by omega) (h2 cell hm)
    · have : cell = c := by simpa using hm
      subst this
      exact arrOk_mono (by omega) (by omega) hc

/-- The invariant carried through descriptor assembly: the heap has only
grown from the starting heap, stays ok, the _where address stays
allocated, and every value already collected for the descriptor is ok. -/
def PieceInv (h0 : Heap) (w : Nat) (st : Heap × OCell) : Prop :=
  HeapExtends h0 st.1 ∧ st.1.okHeap w = true ∧ w < st.1.objs.length ∧
  cellOk st.1.objs.length st.1.arrs.length w st.2 = true

/-- Assembling one piece preserves the invariant: a skipped piece
changes nothing, a copied piece stores a fresh reference whose cell
holds values read from an ok heap, and a primitive piece is ok as is. -/
theorem assemblePiece_inv {h0 : Heap} {w : Nat} {st : Heap × OCell}
    (hinv : PieceInv h0 w st) (name : String) (v : HVal) :
    PieceInv h0 w (assemblePiece st name v) := by
  obtain ⟨hext, hok, hw, hacc⟩ := hinv
  unfold assemblePiece
  by_cases he : isEmptyH st.1 v = true
  · rw [if_pos he]
    exact ⟨hext, hok, hw, hacc⟩
  · rw [if_neg he]
    cases v with
    | harr a =>
      have hc1 : arrOk st.1.objs.length st.1.arrs.length w (st.1.getArr a) := Heap.okHeap_getArr hok a
      have hok2 : (st.1.allocArr (st.1.getArr a)).1.okHeap w = true := Heap.okHeap_allocArr hok hc1
      have hsame : (st.1.allocArr (st.1.getArr a)).1.getArr (st.1.allocArr (st.1.getArr a)).2
          = st.1.getArr a := Heap.getArr_allocArr_self _ _
      have hc2 : arrOk (st.1.allocArr (st.1.getArr a)).1.objs.length
          (st.1.allocArr (st.1.getArr a)).1.arrs.length w
          ((st.1.allocArr (st.1.getArr a)).1.getArr (st.1.allocArr (st.1.getArr a)).2) = true := by
        rw [hsame]
        exact arrOk_mono (Heap.allocArr_extends _ _).objs_le (Heap.allocArr_extends _ _).arrs_le hc1
      have hok3 := Heap.okHeap_allocArr hok2 hc2
      refine ⟨hext.htrans ((Heap.allocArr_extends _ _).htrans (Heap.allocArr_extends _ _)), hok3, ?_, ?_⟩
      · simp only [Heap.allocArr]
        exact hw
      · rw [cellOk, List.all_append]
        rw [Bool.and_eq_true]
        constructor
        · rw [← cellOk]
          refine cellOk_mono ?_ ?_ hacc
          · exact ((Heap.allocArr_extends _ _).htrans (Heap.allocArr_extends _ _)).objs_le
          · exact ((Heap.allocArr_extends _ _).htrans (Heap.allocArr_extends _ _)).arrs_le
        · simp only [List.all_cons, List.all_nil, Bool.and_true, Heap.allocArr, HVal.okB,
            List.length_append, List.length_cons, List.length_nil, decide_eq_true_eq]
          omega
    | hobj a =>
      have hc1 : cellOk st.1.objs.length st.1.arrs.length w (st.1.getObj a) := Heap.okHeap_getObj hok a
      have hok2 : (st.1.allocObj (st.1.getObj a)).1.okHeap w = true := Heap.okHeap_allocObj hok hc1
      refine ⟨hext.htrans (Heap.allocObj_extends _ _), hok2, ?_, ?_⟩
      · exact Nat.lt_of_lt_of_le hw (Heap.allocObj_extends _ _).objs_le
      · rw [cellOk, List.all_append]
        rw [Bool.and_eq_true]
        constructor
        · rw [← cellOk]
          exact cellOk_mono (Heap.allocObj_extends _ _).objs_le (Heap.allocObj_extends _ _).arrs_le hacc
        · simp only [List.all_cons, List.all_nil, Bool.and_true, Heap.allocObj, HVal.okB,
            List.length_append, List.length_cons, List.length_nil, Bool.and_eq_true,
            decide_eq_true_eq]
          omega
    | hstr s =>
      refine ⟨hext, hok, hw, ?_⟩
      rw [cellOk, List.all_append, Bool.and_eq_true]
      exact ⟨hacc, rfl⟩
    | hnum n =>
      refine ⟨hext, hok, hw, ?_⟩
      rw [cellOk, List.all_append, Bool.and_eq_true]
      exact ⟨hacc, rfl⟩
    | hnan =>
      refine ⟨hext, hok, hw, ?_⟩
      rw [cellOk, List.all_append, Bool.and_eq_true]
      exact ⟨hacc, rfl⟩
    | hbool b =>
      refine ⟨hext, hok, hw, ?_⟩
      rw [cellOk, List.all_append, Bool.and_eq_true]
      exact ⟨hacc, rfl⟩
    | hUndefined =>
      refine ⟨hext, hok, hw, ?_⟩
      rw [cellOk, List.all_append, Bool.and_eq_true]
      exact ⟨hacc, rfl⟩
    | hnull =>
      refine ⟨hext, hok, hw, ?_⟩
      rw [cellOk, List.all_append, Bool.and_eq_true]
      exact ⟨hacc, rfl⟩

/-- Allocating the final descriptor object from an invariant state: the
heap has only grown, stays ok, and the descriptor reference is ok (in
particular it is not the _where address). -/
theorem hassembleFinal_spec {h0 : Heap} {w : Nat} {st : Heap × OCell}
    (hinv : PieceInv h0 w st) :
    HeapExtends h0 (st.1.allocObj st.2).1 ∧
    (st.1.allocObj st.2).1.okHeap w = true ∧
    HVal.okB (st.1.allocObj st.2).1.objs.length (st.1.allocObj st.2).1.arrs.length w
      (.hobj (st.1.allocObj st.2).2) = true := by
  obtain ⟨hext, hok, hw, hacc⟩ := hinv
  refine ⟨hext.htrans (Heap.allocObj_extends _ _), Heap.okHeap_allocObj hok hacc, ?_⟩
  simp only [Heap.allocObj, HVal.okB, List.length_append, List.length_cons, List.length_nil,
    Bool.and_eq_true, decide_eq_true_eq]
  omega

/-- Descriptor assembly from an ok heap: the heap only grows, stays ok,
and the returned descriptor address is an ok object reference distinct
from the _where address. -/
theorem hassemble_spec (h : Heap) (q : HQuery)
    (hh : h.okHeap q.whereRef = true) (hw : q.whereRef < h.objs.length) :
    HeapExtends h (hassemble h q).1 ∧
    (hassemble h q).1.okHeap q.whereRef = true ∧
    HVal.okB (hassemble h q).1.objs.length (hassemble h q).1.arrs.length q.whereRef
      (.hobj (hassemble h q).2) = true := by
  have i0 : PieceInv h q.whereRef (h, ([] : OCell)) := ⟨HeapExtends.hrefl h, hh, hw, rfl⟩
  exact hassembleFinal_spec
    (assemblePiece_inv
      (assemblePiece_inv
        (assemblePiece_inv
          (assemblePiece_inv
            (assemblePiece_inv
              (assemblePiece_inv
                (assemblePiece_inv i0 ("select") (.harr q.selectRef))
                ("distinct") (.hbool q.distinctF))
              ("from") q.fromV)
            ("where") (.hobj q.whereRef))
          ("order") (.harr q.orderRef))
        ("offset") q.offsetV)
      ("limit") q.limitV)

/-- The conditional object only allocates. -/
theorem condObject_extends (h : Heap) (v : HVal) (c : OCell) :
    HeapExtends h (condObject h v c).1 := by
  unfold condObject
  split
  · exact HeapExtends.hrefl h
  · exact Heap.allocObj_extends h c

/-- The where tail allocates and then writes only the _where object. -/
theorem whereTail_frame (h : Heap) (q : HQuery) (kv opv vv : HVal) :
    FrameLe q.whereRef h (whereTail h q kv opv vv).1 ∧
    (whereTail h q kv opv vv).2 = q := by
  refine ⟨?_, rfl⟩
  exact (((condObject_extends h vv _).htrans (condObject_extends _ kv _)).frameLe _).ftrans
    (Heap.extendAt_frameLe _ _ _)

/-- One builder call writes only the _where object of the builder it
runs on (everything else it touches is freshly allocated) and never
changes the _where address of the builder. -/
theorem stepOp_frame (h : Heap) (q : HQuery) (op : QOp) :
    FrameLe q.whereRef h (stepOp h q op).1 ∧
    (stepOp h q op).2.whereRef = q.whereRef := by
  cases op with
  | opWhere1 map =>
      refine ⟨?_, rfl⟩
      exact (((allocTree_extends h map).htrans (condObject_extends _ _ _)).frameLe _).ftrans
        (Heap.extendAt_frameLe _ _ _)
  | opWhere2 key v =>
      have hw := whereTail_frame (allocTree (allocTree h key).1 v).1 q
        (allocTree h key).2
        (.hstr (if isArrayH (allocTree (allocTree h key).1 v).2 then ("$in") else ("$eq")))
        (allocTree (allocTree h key).1 v).2
      refine ⟨?_, by rw [show (stepOp h q (.opWhere2 key v)).2 = q from hw.2]⟩
      exact (((allocTree_extends h key).htrans (allocTree_extends _ v)).frameLe _).ftrans hw.1
  | opWhere3 key op v =>
      have hw := whereTail_frame (allocTree (allocTree (allocTree h key).1 op).1 v).1 q
        (allocTree h key).2 (allocTree (allocTree h key).1 op).2
        (allocTree (allocTree (allocTree h key).1 op).1 v).2
      refine ⟨?_, by rw [show (stepOp h q (.opWhere3 key op v)).2 = q from hw.2]⟩
      exact (((allocTree_extends h key).htrans
        ((allocTree_extends _ op).htrans (allocTree_extends _ v))).frameLe _).ftrans hw.1
  | opWhereIn key v =>
      have hw := whereTail_frame (allocTree (allocTree h key).1 v).1 q
        (allocTree h key).2 (.hstr ("$in")) (allocTree (allocTree h key).1 v).2
      refine ⟨?_, by rw [show (stepOp h q (.opWhereIn key v)).2 = q from hw.2]⟩
      exact (((allocTree_extends h key).htrans (allocTree_extends _ v)).frameLe _).ftrans hw.1
  | opOrWhere cls =>
      refine ⟨?_, rfl⟩
      exact (((allocElems_extends h cls).htrans
        ((Heap.allocArr_extends _ _).htrans (Heap.allocObj_extends _ _))).frameLe _).ftrans
        (Heap.extendAt_frameLe _ _ _)
  | opSelect field rest =>
      refine ⟨?_, rfl⟩
      exact (((allocTree_extends h field).htrans
        ((allocElems_extends _ rest).htrans (Heap.allocArr_extends _ _))).frameLe _)
  | opOrder field rest =>
      refine ⟨?_, rfl⟩
      exact (((allocTree_extends h field).htrans
        ((allocElems_extends _ rest).htrans (Heap.allocArr_extends _ _))).frameLe _)
  | opFrom s =>
      exact ⟨(allocTree_extends h s).frameLe _, rfl⟩
  | opTake n =>
      exact ⟨(allocTree_extends h n).frameLe _, rfl⟩
  | opSkip n =>
      exact ⟨(allocTree_extends h n).frameLe _, rfl⟩
  | opDistinct =>
      exact ⟨FrameLe.frefl _ h, rfl⟩

/-- A sequence of builder calls stays inside the frame of the _where
address, which none of them changes. -/
theorem applyOps_frame (ops : List QOp) : ∀ (h : Heap) (q : HQuery),
    FrameLe q.whereRef h (applyOps h q ops).1 ∧
    (applyOps h q ops).2.whereRef = q.whereRef := by
  induction ops with
  | nil => exact fun h q => ⟨FrameLe.frefl _ h, rfl⟩
  | cons op ops ih =>
      intro h q
      have hs := stepOp_frame h q op
      have hi := ih (stepOp h q op).1 (stepOp h q op).2
      rw [hs.2] at hi
      exact ⟨hs.1.ftrans hi.1, by rw [show (applyOps h q (op :: ops)).2
        = (applyOps (stepOp h q op).1 (stepOp h q op).2 ops).2 from rfl, hi.2]⟩

/-- Congruence for Option mapM under a pointwise-equal function. -/
theorem mapMOptionCongr {α β : Type} (f g : α → Option β) :
    ∀ (l : List α), (∀ a ∈ l, f a = g a) → l.mapM f = l.mapM g := by
  intro l
  induction l with
  | nil => intro _; rfl
  | cons x xs ih =>
      intro hp
      rw [List.mapM_cons, List.mapM_cons, hp x (List.mem_cons_self x xs),
        ih (fun a ha => hp a (List.mem_cons_of_mem x ha))]

/-- Reading an ok value gives the same tree in any heap inside the
frame: the walk never reaches the _where address and never leaves the
already-allocated region, which the frame keeps intact. -/
theorem denote_ext {w : Nat} {h1 h2 : Heap} (hf : FrameLe w h1 h2)
    (hh : h1.okHeap w = true) :
    ∀ (fuel : Nat) (v : HVal),
      HVal.okB h1.objs.length h1.arrs.length w v = true →
      denoteV fuel h2 v = denoteV fuel h1 v := by
  intro fuel
  induction fuel with
  | zero => intro v _; rfl
  | succ n ih =>
      intro v hv
      cases v with
      | hstr s => rfl
      | hnum m => rfl
      | hnan => rfl
      | hbool b => rfl
      | hUndefined => rfl
      | hnull => rfl
      | hobj a =>
          simp only [HVal.okB, Bool.and_eq_true, decide_eq_true_eq] at hv
          have hcell : h2.getObj a = h1.getObj a := hf.2.2.1 a hv.1 hv.2
          have hok := Heap.okHeap_getObj hh a
          rw [cellOk, List.all_eq_true] at hok
          show ((h2.getObj a).mapM
              (fun kv => (denoteV n h2 kv.2).map (fun t => (kv.1, t)))).map PTree.pobj
            = ((h1.getObj a).mapM
              (fun kv => (denoteV n h1 kv.2).map (fun t => (kv.1, t)))).map PTree.pobj
          rw [hcell]
          rw [mapMOptionCongr _ _ (h1.getObj a)
            (fun kv hkv => by rw [ih kv.2 (hok kv hkv)])]
      | harr a =>
          simp only [HVal.okB, decide_eq_true_eq] at hv
          have hcell : h2.getArr a = h1.getArr a := hf.2.2.2 a hv
          have hok := Heap.okHeap_getArr hh a
          rw [arrOk, List.all_eq_true] at hok
          show ((h2.getArr a).mapM (denoteV n h2)).map PTree.parr
            = ((h1.getArr a).mapM (denoteV n h1)).map PTree.parr
          rw [hcell]
          rw [mapMOptionCongr _ _ (h1.getArr a)
            (fun x hx => ih x (hok x hx))]

/-- C9: once assemble has produced a descriptor, later constraint calls
on the same builder (the where family, select, order, from, take, skip,
distinct) leave that descriptor unchanged: the descriptor object and
the copies assemble allocated are fresh, the only existing cell any
later call writes is the _where object of the builder, and an ok heap
never stores a reference to that object, so a structural read of the
descriptor yields the same tree at any fuel before and after the
calls. -/
theorem c9_assembled_descriptor_immutable (h0 : Heap) (q0 : HQuery)
    (ops : List QOp) (fuel : Nat)
    (hh : h0.okHeap q0.whereRef = true) (hw : q0.whereRef < h0.objs.length) :
    denoteV fuel (applyOps (hassemble h0 q0).1 q0 ops).1
        (HVal.hobj (hassemble h0 q0).2)
      = denoteV fuel (hassemble h0 q0).1 (HVal.hobj (hassemble h0 q0).2) := by
  obtain ⟨hext, hok1, hdok⟩ := hassemble_spec h0 q0 hh hw
  have hfr := applyOps_frame ops (hassemble h0 q0).1 q0
  exact denote_ext hfr.1 hok1 fuel _ hdok

/-- C9 witness: the snapshot theorem applied to a freshly constructed
builder in the empty heap, followed by a two-argument where, a select
and a distinct call. -/
theorem c9_witness :
    ((HQuery.init ⟨[], []⟩).1.okHeap (HQuery.init ⟨[], []⟩).2.whereRef = true ∧
      (HQuery.init ⟨[], []⟩).2.whereRef < (HQuery.init ⟨[], []⟩).1.objs.length) ∧
    denoteV 6
      (applyOps (hassemble (HQuery.init ⟨[], []⟩).1 (HQuery.init ⟨[], []⟩).2).1
        (HQuery.init ⟨[], []⟩).2
        [QOp.opWhere2 (.tstr ("age")) (.tnum 30),
         QOp.opSelect (.tstr ("name")) .tnil, QOp.opDistinct]).1
      (HVal.hobj (hassemble (HQuery.init ⟨[], []⟩).1 (HQuery.init ⟨[], []⟩).2).2)
      = denoteV 6 (hassemble (HQuery.init ⟨[], []⟩).1 (HQuery.init ⟨[], []⟩).2).1
        (HVal.hobj (hassemble (HQuery.init ⟨[], []⟩).1 (HQuery.init ⟨[], []⟩).2).2) :=
  ⟨⟨by decide, by decide⟩,
   c9_assembled_descriptor_immutable (HQuery.init ⟨[], []⟩).1 (HQuery.init ⟨[], []⟩).2
     [QOp.opWhere2 (.tstr ("age")) (.tnum 30),
      QOp.opSelect (.tstr ("name")) .tnil, QOp.opDistinct]
     6 (by decide) (by decide)⟩
